import Mathlib

/-!
Verification of `src/main.py` (Monte Carlo estimation of π).

The random source is modelled as an explicit stream of rational draws
`rng : ℕ → ℚ` together with an offset: the call that starts at offset
`off` consumes draws `rng off, rng (off+1), ...` in order, exactly as the
Python code consumes the shared global numpy random source.  Python floats
are modelled as rationals (for the estimator, whose arithmetic is exact
ratio arithmetic) and as reals (for the logspace sweep in `main`, whose
values are irrational powers of ten).
-/

/-- The membership test of the loop body of `mc_method` (src/main.py lines
36-39): the code computes `z = sqrt(r0^2 + r1^2)` and tests `z < 1`; since
both sides are nonnegative this holds exactly when `r0^2 + r1^2 < 1`, which
is the form used here so that the test stays decidable over ℚ.  The
equivalence with the square-root form is proved in `insideUnitCircle_iff_sqrt`. -/
def insideUnitCircle (p : ℚ × ℚ) : Bool :=
  decide (p.1 ^ 2 + p.2 ^ 2 < 1)

/-- One list comprehension `[np.random.uniform(min, max) for _ in np.arange(n)]`
(src/main.py lines 27-28): `n` fresh draws taken from the stream starting at
offset `off`. -/
def drawList (rng : ℕ → ℚ) (off n : ℕ) : List ℚ :=
  (List.range n).map fun i => rng (off + i)

/-- The transposed point list `t_rand` (src/main.py lines 31-32): the x
coordinates are all drawn first, then the y coordinates, and the transpose
pairs them index by index. -/
def mcPoints (rng : ℕ → ℚ) (off n : ℕ) : List (ℚ × ℚ) :=
  List.zip (drawList rng off n) (drawList rng (off + n) n)

/-- The counting loop of `mc_method` (src/main.py lines 35-39). -/
def countInside (pts : List (ℚ × ℚ)) : ℕ :=
  (pts.filter insideUnitCircle).length

/-- `mc_method` (src/main.py lines 12-50).  `np.arange(n)` is empty for
`n ≤ 0`, so `n.toNat` draws are taken per coordinate; `ratio = count / n`
raises `ZeroDivisionError` when `n = 0`, modelled as `none`; otherwise the
function returns `ratio * 4` (line 47). -/
def mc_method (rng : ℕ → ℚ) (off : ℕ) (n : ℤ) : Option ℚ :=
  if n = 0 then none
  else some ((countInside (mcPoints rng off n.toNat) : ℚ) / (n : ℚ) * 4)

lemma drawList_length (rng : ℕ → ℚ) (off n : ℕ) :
    (drawList rng off n).length = n := by
  simp [drawList]

lemma mcPoints_length (rng : ℕ → ℚ) (off n : ℕ) :
    (mcPoints rng off n).length = n := by
  simp [mcPoints, List.length_zip, drawList_length]

lemma countInside_le (pts : List (ℚ × ℚ)) : countInside pts ≤ pts.length :=
  List.length_filter_le _ _

lemma insideUnitCircle_iff_sqrt (p : ℚ × ℚ) :
    insideUnitCircle p = true ↔
      Real.sqrt ((p.1 : ℝ) ^ 2 + (p.2 : ℝ) ^ 2) < 1 := by
  rw [Real.sqrt_lt' one_pos]
  simp only [insideUnitCircle, decide_eq_true_eq, one_pow]
  constructor
  · intro h
    exact_mod_cast h
  · intro h
    exact_mod_cast h

lemma mc_method_of_ne_zero (rng : ℕ → ℚ) (off : ℕ) {n : ℤ} (hn : n ≠ 0) :
    mc_method rng off n =
      some ((countInside (mcPoints rng off n.toNat) : ℚ) / (n : ℚ) * 4) := by
  simp [mc_method, hn]

lemma drawList_congr (rng₁ rng₂ : ℕ → ℚ) (o m : ℕ)
    (h : ∀ i, i < m → rng₁ (o + i) = rng₂ (o + i)) :
    drawList rng₁ o m = drawList rng₂ o m := by
  unfold drawList
  apply List.map_congr_left
  intro i hi
  exact h i (List.mem_range.mp hi)

lemma mcPoints_getD (rng : ℕ → ℚ) (off n k : ℕ) (hk : k < n) :
    (mcPoints rng off n).getD k (0, 0) = (rng (off + k), rng (off + n + k)) := by
  have hlen : k < (mcPoints rng off n).length := by
    rw [mcPoints_length]; exact hk
  rw [List.getD_eq_getElem _ _ hlen]
  simp [mcPoints, drawList, List.getElem_zip, hk]

/-- Claim C1: for `n ≥ 1`, `mc_method` draws `n` points from the stream
(x coordinates first, then y coordinates, paired index by index), counts
the points whose Euclidean distance from the origin is strictly less than
one, and returns exactly `4 × count / n`. -/
theorem mc_method_draws_counts_returns (rng : ℕ → ℚ) (off : ℕ) (n : ℤ)
    (hn : 1 ≤ n) :
    (mcPoints rng off n.toNat).length = n.toNat ∧
    (∀ k, k < n.toNat →
      (mcPoints rng off n.toNat).getD k (0, 0) =
        (rng (off + k), rng (off + n.toNat + k))) ∧
    (∀ p ∈ mcPoints rng off n.toNat,
      (insideUnitCircle p = true ↔
        Real.sqrt ((p.1 : ℝ) ^ 2 + (p.2 : ℝ) ^ 2) < 1)) ∧
    mc_method rng off n =
      some (4 * (countInside (mcPoints rng off n.toNat) : ℚ) / (n : ℚ)) := by
  refine ⟨mcPoints_length rng off n.toNat,
    fun k hk => mcPoints_getD rng off n.toNat k hk,
    fun p _ => insideUnitCircle_iff_sqrt p, ?_⟩
  rw [mc_method_of_ne_zero rng off (by omega)]
  congr 1
  ring

/-- Witness for C1 at `n = 1` with the all-zero stream. -/
theorem mc_method_draws_counts_returns_witness :
    (1 : ℤ) ≤ 1 ∧
    ((mcPoints (fun _ => (0 : ℚ)) 0 (1 : ℤ).toNat).length = (1 : ℤ).toNat ∧
    (∀ k, k < (1 : ℤ).toNat →
      (mcPoints (fun _ => (0 : ℚ)) 0 (1 : ℤ).toNat).getD k (0, 0) =
        ((fun _ => (0 : ℚ)) (0 + k), (fun _ => (0 : ℚ)) (0 + (1 : ℤ).toNat + k))) ∧
    (∀ p ∈ mcPoints (fun _ => (0 : ℚ)) 0 (1 : ℤ).toNat,
      (insideUnitCircle p = true ↔
        Real.sqrt ((p.1 : ℝ) ^ 2 + (p.2 : ℝ) ^ 2) < 1)) ∧
    mc_method (fun _ => (0 : ℚ)) 0 1 =
      some (4 * (countInside (mcPoints (fun _ => (0 : ℚ)) 0 (1 : ℤ).toNat) : ℚ) /
        ((1 : ℤ) : ℚ))) :=
  ⟨le_refl 1, mc_method_draws_counts_returns (fun _ => (0 : ℚ)) 0 1 (le_refl 1)⟩

/-- Claim C2: for every `n ≥ 1` and every outcome of the draws, the value
returned by `mc_method` lies in the closed interval `[0, 4]`. -/
theorem mc_method_estimate_in_range (rng : ℕ → ℚ) (off : ℕ) (n : ℤ)
    (hn : 1 ≤ n) :
    ∃ q : ℚ, mc_method rng off n = some q ∧ 0 ≤ q ∧ q ≤ 4 := by
  have hn0 : (0 : ℚ) < (n : ℚ) := by exact_mod_cast hn.trans_lt' zero_lt_one
  refine ⟨_, mc_method_of_ne_zero rng off (by omega), ?_, ?_⟩
  · positivity
  · have hc : (countInside (mcPoints rng off n.toNat) : ℚ) ≤ (n : ℚ) := by
      have h1 : countInside (mcPoints rng off n.toNat) ≤ n.toNat :=
        (countInside_le _).trans_eq (mcPoints_length rng off n.toNat)
      have h2 : ((n.toNat : ℤ) : ℚ) = (n : ℚ) := by
        rw [Int.toNat_of_nonneg (by omega)]
      calc (countInside (mcPoints rng off n.toNat) : ℚ)
          ≤ ((n.toNat : ℤ) : ℚ) := by exact_mod_cast h1
        _ = (n : ℚ) := h2
    have hdiv : (countInside (mcPoints rng off n.toNat) : ℚ) / (n : ℚ) ≤ 1 :=
      (div_le_one hn0).mpr hc
    nlinarith [hdiv]

/-- Witness for C2 at `n = 1` with the all-zero stream. -/
theorem mc_method_estimate_in_range_witness :
    (1 : ℤ) ≤ 1 ∧
    ∃ q : ℚ, mc_method (fun _ => (0 : ℚ)) 0 1 = some q ∧ 0 ≤ q ∧ q ≤ 4 :=
  ⟨le_refl 1, mc_method_estimate_in_range (fun _ => (0 : ℚ)) 0 1 (le_refl 1)⟩

/-- Claim C5: if `n = 0` reaches `mc_method`, evaluation fails with a
division-by-zero error (modelled as `none`); under the precondition
`n ≥ 1` the division `count / n` never divides by zero and the call
succeeds. -/
theorem mc_method_zero_division (rng : ℕ → ℚ) (off : ℕ) :
    mc_method rng off 0 = none ∧
    ∀ n : ℤ, 1 ≤ n → (mc_method rng off n).isSome = true := by
  refine ⟨by simp [mc_method], fun n hn => ?_⟩
  rw [mc_method_of_ne_zero rng off (by omega)]
  rfl

/-- Witness for C5 with the all-zero stream and `n = 5`. -/
theorem mc_method_zero_division_witness :
    (1 : ℤ) ≤ 5 ∧
    mc_method (fun _ => (0 : ℚ)) 0 0 = none ∧
    (mc_method (fun _ => (0 : ℚ)) 0 5).isSome = true :=
  ⟨by decide, (mc_method_zero_division (fun _ => (0 : ℚ)) 0).1,
    (mc_method_zero_division (fun _ => (0 : ℚ)) 0).2 5 (by decide)⟩

/-- Claim C6: for `n = 1`, `mc_method` returns either exactly `0` or
exactly `4`, for every outcome of the single random point. -/
theorem mc_method_single_point (rng : ℕ → ℚ) (off : ℕ) :
    mc_method rng off 1 = some 0 ∨ mc_method rng off 1 = some 4 := by
  have hpts : mcPoints rng off (1 : ℤ).toNat = [(rng off, rng (off + 1))] := by
    simp [mcPoints, drawList, List.range_succ]
  rcases h : insideUnitCircle (rng off, rng (off + 1)) with hf | ht
  · left
    rw [mc_method_of_ne_zero rng off one_ne_zero, hpts]
    simp [countInside, h]
  · right
    rw [mc_method_of_ne_zero rng off one_ne_zero, hpts]
    simp [countInside, h]

/-- Claim C7: with the random source modelled as an explicit stream, the
output of `mc_method` depends only on the `2·n` draws it consumes, so two
runs with the same stream (same seed) and the same `n` return identical
outputs. -/
theorem mc_method_deterministic (rng₁ rng₂ : ℕ → ℚ) (off : ℕ) (n : ℤ)
    (h : ∀ i, i < 2 * n.toNat → rng₁ (off + i) = rng₂ (off + i)) :
    mc_method rng₁ off n = mc_method rng₂ off n := by
  have hx : drawList rng₁ off n.toNat = drawList rng₂ off n.toNat := by
    refine drawList_congr rng₁ rng₂ off n.toNat fun i hi => h i (by omega)
  have hy : drawList rng₁ (off + n.toNat) n.toNat =
      drawList rng₂ (off + n.toNat) n.toNat := by
    have := fun i (hi : i < n.toNat) => h (n.toNat + i) (by omega)
    refine drawList_congr rng₁ rng₂ (off + n.toNat) n.toNat fun i hi => ?_
    have hidx : off + n.toNat + i = off + (n.toNat + i) := by omega
    rw [hidx]
    exact this i hi
  unfold mc_method mcPoints
  rw [hx, hy]

/-- Witness for C7: two streams that agree on the six draws consumed for
`n = 3` (but differ later) give identical estimates. -/
theorem mc_method_deterministic_witness :
    (∀ i, i < 2 * (3 : ℤ).toNat →
      (fun _ => (0 : ℚ)) (0 + i) = (fun j => if j < 6 then (0 : ℚ) else 1) (0 + i)) ∧
    mc_method (fun _ => (0 : ℚ)) 0 3 =
      mc_method (fun j => if j < 6 then (0 : ℚ) else 1) 0 3 :=
  ⟨by decide, mc_method_deterministic (fun _ => (0 : ℚ))
    (fun j => if j < 6 then (0 : ℚ) else 1) 0 3 (by decide)⟩

/-- Claim C10: for every negative `n`, `mc_method` does not fail: the
`np.arange(n)` comprehensions are empty so no points are drawn, the inside
count is `0`, and the function returns `0` (Python computes `0 / n = -0.0`
and `-0.0 * 4 = -0.0`, numerically equal to zero), silently accepting an
input that violates the positive-integer precondition. -/
theorem mc_method_negative_input (rng : ℕ → ℚ) (off : ℕ) (n : ℤ)
    (hn : n < 0) :
    mcPoints rng off n.toNat = [] ∧
    countInside (mcPoints rng off n.toNat) = 0 ∧
    mc_method rng off n = some 0 := by
  have h0 : n.toNat = 0 := Int.toNat_of_nonpos (le_of_lt hn)
  have hpts : mcPoints rng off n.toNat = [] := by
    rw [h0]
    simp [mcPoints, drawList]
  refine ⟨hpts, by rw [hpts]; rfl, ?_⟩
  rw [mc_method_of_ne_zero rng off (by omega), hpts]
  simp [countInside]

/-- Witness for C10 at `n = -1` with the all-zero stream. -/
theorem mc_method_negative_input_witness :
    (-1 : ℤ) < 0 ∧
    (mcPoints (fun _ => (0 : ℚ)) 0 (-1 : ℤ).toNat = [] ∧
    countInside (mcPoints (fun _ => (0 : ℚ)) 0 (-1 : ℤ).toNat) = 0 ∧
    mc_method (fun _ => (0 : ℚ)) 0 (-1) = some 0) :=
  ⟨by decide, mc_method_negative_input (fun _ => (0 : ℚ)) 0 (-1) (by decide)⟩

/-- The exponent of the `k`-th entry of `np.logspace(1, 5, 300)`
(src/main.py line 101): numpy places `num` points with exponents linearly
spaced from `start` to `stop` inclusive, i.e. `1 + 4·k/299`. -/
noncomputable def testExp (k : ℕ) : ℝ :=
  1 + 4 * k / 299

/-- `test_n = np.logspace(1, 5, 300)` (src/main.py line 101), the
real-valued sample-size sweep. -/
noncomputable def test_n : List ℝ :=
  (List.range 300).map fun k => (10 : ℝ) ^ testExp k

/-- Python `int()` applied to a real value (src/main.py line 109):
truncation toward zero. -/
noncomputable def intTrunc (x : ℝ) : ℤ :=
  if 0 ≤ x then ⌊x⌋ else ⌈x⌉

/-- The integer sample counts actually passed to the estimator:
`int(n)` for each `n` in `test_n` (src/main.py line 109). -/
noncomputable def mainNs : List ℤ :=
  test_n.map intTrunc

/-- The loop of src/main.py lines 108-110: one `mc_method` call per sample
count, threading the shared random stream (each call with count `n`
consumes `2·n` draws); any division-by-zero failure propagates. -/
def runSweep (rng : ℕ → ℚ) : ℕ → List ℤ → Option (List ℚ)
  | _, [] => some []
  | off, n :: ns =>
    match mc_method rng off n, runSweep rng (off + 2 * n.toNat) ns with
    | some e, some es => some (e :: es)
    | _, _ => none

/-- One row of the DataFrame `df` (src/main.py lines 113-118): the stored
sample size (the raw float from `test_n`), the estimate, and the deviation. -/
structure ResultRow where
  n : ℝ
  estimate : ℝ
  deviation : ℝ

/-- Assembly of `df` (src/main.py lines 113-118): column `n` is `test_n`
itself (un-truncated), column `estimate` is the collected `pi_est`, and
column `deviation` is `np.pi` minus the estimate. -/
noncomputable def mkRows : List ℝ → List ℚ → List ResultRow
  | [], _ => []
  | _ :: _, [] => []
  | v :: vs, e :: es => ⟨v, (e : ℝ), Real.pi - (e : ℝ)⟩ :: mkRows vs es

/-- The ResultSet built by `main` (src/main.py lines 96-124), `none` if any
estimator call fails. -/
noncomputable def mainRows (rng : ℕ → ℚ) : Option (List ResultRow) :=
  match runSweep rng 0 mainNs with
  | some es => some (mkRows test_n es)
  | none => none

/-- `main` (src/main.py lines 96-126): builds the ResultSet and returns the
exit code `0` (line 126).  Rendering (`create_plots`) only performs I/O and
does not affect the returned value. -/
noncomputable def mainResult (rng : ℕ → ℚ) : Option (List ResultRow × ℤ) :=
  match mainRows rng with
  | some rows => some (rows, 0)
  | none => none

lemma test_n_length : test_n.length = 300 := by
  simp [test_n]

lemma testExp_strictMono {a b : ℕ} (h : a < b) : testExp a < testExp b := by
  unfold testExp
  have h' : (a : ℝ) < (b : ℝ) := by exact_mod_cast h
  linarith

lemma one_le_testExp (k : ℕ) : 1 ≤ testExp k := by
  unfold testExp
  have h : (0 : ℝ) ≤ (k : ℝ) := Nat.cast_nonneg k
  linarith

lemma testExp_le_five {k : ℕ} (hk : k ≤ 299) : testExp k ≤ 5 := by
  unfold testExp
  have h : (k : ℝ) ≤ 299 := by exact_mod_cast hk
  linarith

lemma ten_le_testVal (k : ℕ) : 10 ≤ (10 : ℝ) ^ testExp k := by
  have h1 : (10 : ℝ) ^ (1 : ℝ) ≤ (10 : ℝ) ^ testExp k :=
    (Real.rpow_le_rpow_left_iff (by norm_num)).mpr (one_le_testExp k)
  rwa [Real.rpow_one] at h1

lemma testVal_le {k : ℕ} (hk : k ≤ 299) : (10 : ℝ) ^ testExp k ≤ 100000 := by
  have h1 : (10 : ℝ) ^ testExp k ≤ (10 : ℝ) ^ ((5 : ℕ) : ℝ) := by
    refine (Real.rpow_le_rpow_left_iff (by norm_num)).mpr ?_
    have := testExp_le_five hk
    norm_num
    linarith
  rw [Real.rpow_natCast] at h1
  norm_num at h1
  exact h1

lemma mem_test_n {x : ℝ} (hx : x ∈ test_n) :
    ∃ k, k < 300 ∧ x = (10 : ℝ) ^ testExp k := by
  simp only [test_n, List.mem_map, List.mem_range] at hx
  obtain ⟨k, hk, hkx⟩ := hx
  exact ⟨k, hk, hkx.symm⟩

lemma test_n_bounds {x : ℝ} (hx : x ∈ test_n) : 10 ≤ x ∧ x ≤ 100000 := by
  obtain ⟨k, hk, rfl⟩ := mem_test_n hx
  exact ⟨ten_le_testVal k, testVal_le (by omega)⟩

lemma intTrunc_of_nonneg {x : ℝ} (hx : 0 ≤ x) : intTrunc x = ⌊x⌋ :=
  if_pos hx

lemma intTrunc_bounds {x : ℝ} (h10 : 10 ≤ x) (h1e5 : x ≤ 100000) :
    10 ≤ intTrunc x ∧ intTrunc x ≤ 100000 := by
  rw [intTrunc_of_nonneg (by linarith)]
  constructor
  · exact Int.le_floor.mpr (by exact_mod_cast h10)
  · have h := (Int.floor_le x).trans h1e5
    exact_mod_cast h

lemma mainNs_bounds {n : ℤ} (hn : n ∈ mainNs) : 10 ≤ n ∧ n ≤ 100000 := by
  simp only [mainNs, List.mem_map] at hn
  obtain ⟨x, hx, rfl⟩ := hn
  obtain ⟨h10, h1e5⟩ := test_n_bounds hx
  exact intTrunc_bounds h10 h1e5

lemma mainNs_ne_zero {n : ℤ} (hn : n ∈ mainNs) : n ≠ 0 := by
  have := (mainNs_bounds hn).1
  omega

lemma runSweep_eq_some (rng : ℕ → ℚ) :
    ∀ (ns : List ℤ) (off : ℕ), (∀ n ∈ ns, n ≠ 0) →
      ∃ es, runSweep rng off ns = some es ∧ es.length = ns.length := by
  intro ns
  induction ns with
  | nil => exact fun off _ => ⟨[], rfl, rfl⟩
  | cons n ns ih =>
    intro off h
    obtain ⟨es, hes, hlen⟩ :=
      ih (off + 2 * n.toNat) fun m hm => h m (List.mem_cons_of_mem n hm)
    refine ⟨((countInside (mcPoints rng off n.toNat) : ℚ) / (n : ℚ) * 4) :: es,
      ?_, by simp [hlen]⟩
    simp only [runSweep]
    rw [mc_method_of_ne_zero rng off (h n (List.mem_cons_self n ns)), hes]

lemma test_n_getD {k : ℕ} (hk : k < 300) :
    test_n.getD k 0 = (10 : ℝ) ^ testExp k := by
  have hlen : k < test_n.length := by rw [test_n_length]; exact hk
  rw [List.getD_eq_getElem _ _ hlen]
  simp [test_n]

lemma mkRows_map_n :
    ∀ (vs : List ℝ) (es : List ℚ), es.length = vs.length →
      (mkRows vs es).map ResultRow.n = vs := by
  intro vs
  induction vs with
  | nil => intro es _; cases es <;> rfl
  | cons v vs ih =>
    intro es hlen
    cases es with
    | nil => simp at hlen
    | cons e es =>
      simp only [mkRows, List.map_cons]
      rw [ih es (by simpa using hlen)]

lemma mkRows_deviation :
    ∀ (vs : List ℝ) (es : List ℚ),
      (mkRows vs es).Forall fun r => r.deviation = Real.pi - r.estimate := by
  intro vs
  induction vs with
  | nil => intro es; cases es <;> trivial
  | cons v vs ih =>
    intro es
    cases es with
    | nil => trivial
    | cons e es =>
      rw [mkRows, List.forall_cons]
      exact ⟨rfl, ih es⟩

lemma testExp_zero : testExp 0 = 1 := by
  unfold testExp
  norm_num

lemma testExp_299 : testExp 299 = 5 := by
  unfold testExp
  norm_num

lemma rpow_five : (10 : ℝ) ^ (5 : ℝ) = 100000 := by
  have h : ((5 : ℕ) : ℝ) = (5 : ℝ) := by norm_num
  rw [← h, Real.rpow_natCast]
  norm_num

/-- Claim C3: the sweep sequence `test_n = np.logspace(1, 5, 300)` runs
from `10¹` to `10⁵`, is strictly ascending with exactly 300 steps, every
value (and every truncated count) lies within `[10, 100000]`, and each real
value is truncated toward zero to an integer (`int(n)`) before being passed
to the estimator. -/
theorem sweep_logspace_sequence :
    test_n.length = 300 ∧
    List.Pairwise (· < ·) test_n ∧
    test_n.getD 0 0 = 10 ∧
    test_n.getD 299 0 = 100000 ∧
    test_n.Forall (fun x => 10 ≤ x ∧ x ≤ 100000) ∧
    mainNs = test_n.map intTrunc ∧
    mainNs.Forall (fun n => 10 ≤ n ∧ n ≤ 100000) := by
  refine ⟨test_n_length, ?_, ?_, ?_, ?_, rfl, ?_⟩
  · unfold test_n
    rw [List.pairwise_map]
    exact (List.pairwise_lt_range 300).imp fun hab =>
      (Real.rpow_lt_rpow_left_iff (by norm_num)).mpr (testExp_strictMono hab)
  · rw [test_n_getD (by norm_num), testExp_zero, Real.rpow_one]
  · rw [test_n_getD (by norm_num), testExp_299, rpow_five]
  · rw [List.forall_iff_forall_mem]
    exact fun x hx => test_n_bounds hx
  · rw [List.forall_iff_forall_mem]
    exact fun n hn => mainNs_bounds hn

/-- Claim C4: for every ResultRow in the ResultSet built by the driver, the
`deviation` field equals true π minus the `estimate` field of that same row
(exactly, in the real-number model). -/
theorem result_rows_deviation (rng : ℕ → ℚ) :
    ((mainRows rng).getD []).Forall
      fun r => r.deviation = Real.pi - r.estimate := by
  cases hrs : runSweep rng 0 mainNs with
  | none => simp [mainRows, hrs]
  | some es =>
    simp only [mainRows, hrs, Option.getD_some]
    exact mkRows_deviation test_n es

/-- Claim C8: the entry point always succeeds and returns the exit code
`0`; no non-zero return path exists in `main` (src/main.py line 126). -/
theorem main_returns_zero (rng : ℕ → ℚ) :
    ∃ rows, mainResult rng = some (rows, 0) := by
  obtain ⟨es, hes, _⟩ :=
    runSweep_eq_some rng mainNs 0 fun n hn => mainNs_ne_zero hn
  exact ⟨mkRows test_n es, by simp [mainResult, mainRows, hes]⟩

lemma pow299_ne_ten_pow {k : ℕ} (h1 : 1 ≤ k) (h2 : k ≤ 298) (y : ℕ) :
    y ^ 299 ≠ 10 ^ (299 + 4 * k) := by
  intro heq
  have hy0 : y ≠ 0 := by
    intro hy
    rw [hy] at heq
    have hpos : 0 < 10 ^ (299 + 4 * k) := pow_pos (by norm_num) _
    simp [zero_pow] at heq
    omega
  haveI : Fact (Nat.Prime 2) := ⟨by norm_num⟩
  have hv : padicValNat 2 (y ^ 299) = padicValNat 2 (10 ^ (299 + 4 * k)) := by
    rw [heq]
  have h10 : padicValNat 2 10 = 1 := by
    have h25 : (10 : ℕ) = 2 * 5 := by norm_num
    rw [h25, padicValNat.mul (by norm_num) (by norm_num),
      padicValNat.self (by norm_num),
      padicValNat.eq_zero_of_not_dvd (by norm_num)]
  rw [padicValNat.pow 299 hy0, padicValNat.pow (299 + 4 * k) (by norm_num),
    h10, mul_one] at hv
  have hdvd : (299 : ℕ) ∣ 4 * k := by omega
  have hk299 : (299 : ℕ) ∣ k :=
    Nat.Coprime.dvd_of_dvd_mul_left (by decide) hdvd
  have := Nat.le_of_dvd (by omega) hk299
  omega

lemma testVal_pow (k : ℕ) :
    ((10 : ℝ) ^ testExp k) ^ (299 : ℕ) = ((10 : ℕ) ^ (299 + 4 * k) : ℕ) := by
  have hexp : testExp k * ((299 : ℕ) : ℝ) = ((299 + 4 * k : ℕ) : ℝ) := by
    unfold testExp
    push_cast
    ring
  rw [← Real.rpow_natCast ((10 : ℝ) ^ testExp k) 299,
    ← Real.rpow_mul (by norm_num : (0 : ℝ) ≤ 10), hexp, Real.rpow_natCast]
  push_cast
  ring

lemma testVal_not_int {k : ℕ} (h1 : 1 ≤ k) (h2 : k ≤ 298) (t : ℤ) :
    (10 : ℝ) ^ testExp k ≠ (t : ℝ) := by
  intro heq
  have hge : (10 : ℝ) ≤ (t : ℝ) := heq ▸ ten_le_testVal k
  have ht10 : (10 : ℤ) ≤ t := by exact_mod_cast hge
  have hpow : ((t : ℝ)) ^ (299 : ℕ) = ((10 : ℕ) ^ (299 + 4 * k) : ℕ) := by
    rw [← heq]
    exact testVal_pow k
  have hz : t ^ 299 = ((10 : ℕ) ^ (299 + 4 * k) : ℕ) := by exact_mod_cast hpow
  have htn : ((t.toNat : ℤ)) = t := Int.toNat_of_nonneg (by omega)
  have hy : t.toNat ^ 299 = 10 ^ (299 + 4 * k) := by
    have : ((t.toNat : ℤ)) ^ 299 = (((10 : ℕ) ^ (299 + 4 * k) : ℕ) : ℤ) := by
      rw [htn, hz]
    exact_mod_cast this
  exact pow299_ne_ten_pow h1 h2 t.toNat hy

lemma mainNs_length : mainNs.length = 300 := by
  simp [mainNs, test_n_length]

/-- Claim C9: every row of the DataFrame stores in its `n` column the
un-truncated real-valued logspace value (the driver builds `df` directly
from `test_n`, src/main.py line 113), while the estimator was called on the
truncated integer `int(n)` (line 109); for every step `k` with
`1 ≤ k ≤ 298` — i.e. all but the two endpoint rows — the stored value is
not an integer, so it differs from the count actually used. -/
theorem stored_counts_untruncated (rng : ℕ → ℚ) (k : ℕ)
    (h1 : 1 ≤ k) (h2 : k ≤ 298) :
    ((mainRows rng).getD []).map ResultRow.n = test_n ∧
    mainNs = test_n.map intTrunc ∧
    test_n.getD k 0 ≠ ((intTrunc (test_n.getD k 0) : ℤ) : ℝ) := by
  refine ⟨?_, rfl, ?_⟩
  · obtain ⟨es, hes, hlen⟩ :=
      runSweep_eq_some rng mainNs 0 fun n hn => mainNs_ne_zero hn
    simp only [mainRows, hes, Option.getD_some]
    exact mkRows_map_n test_n es (by rw [hlen, mainNs_length, test_n_length])
  · rw [test_n_getD (by omega)]
    exact testVal_not_int h1 h2 _

/-- Witness for C9 at step `k = 1` with the all-zero stream. -/
theorem stored_counts_untruncated_witness :
    (1 ≤ 1 ∧ 1 ≤ 298) ∧
    (((mainRows (fun _ => (0 : ℚ))).getD []).map ResultRow.n = test_n ∧
    mainNs = test_n.map intTrunc ∧
    test_n.getD 1 0 ≠ ((intTrunc (test_n.getD 1 0) : ℤ) : ℝ)) :=
  ⟨⟨le_refl 1, by norm_num⟩,
    stored_counts_untruncated (fun _ => (0 : ℚ)) 1 (le_refl 1) (by norm_num)⟩
